import Mathlib

/-!
Verification of the `simple_size` library (`src/lib.rs`).

The library wraps a floating-point byte count in a `Unit` newtype and provides
power-of-two scale conversions, parsing from human-readable strings, display
formatting, arithmetic operators, and a serde adapter.

Embedding conventions:
* The stored `f32` byte count is idealized as an exact rational (`ℚ`).  Every
  concrete value exercised by the claims (small integers, powers of two,
  `1.5 * 2^30`, `1536`, ...) is exactly representable in `f32`, and scaling by a
  power of two is exact in `f32` absent overflow, so the idealization agrees
  with the source on all inputs the claims mention.  IEEE special values
  (infinity, NaN, negative zero) have no counterpart in `ℚ`.
* Rust strings are modelled as `List Char` (`String.data`); the UTF-8 byte
  structure that `split_at_checked` depends on is modelled explicitly by
  `utf8Len` / `splitAtChecked`.
* `str::parse::<f32>` is modelled by `parseF32`, implementing the standard
  grammar `Sign? (Digit+ | Digit+ '.' Digit* | Digit* '.' Digit+) Exp?` with
  exact rational semantics (the `inf`/`nan` forms are outside the exact model;
  they are irrelevant here because the numeric prefix handed to the parser
  always ends in a numeric character).
* Rust's `{:.2}` formatting is modelled by `fmtFixed2` (round half to even,
  two forced fraction digits) and `{}` formatting of a float by `fmtPlain`
  (shortest exact decimal expansion).
* The in-place `*Assign` operators mutate `self`; they are modelled by
  state-passing functions returning the new value of the left operand.
-/

namespace SimpleSize

/-- `const KB: u32 = 10;` (binary exponent of the kilobyte tier). -/
def KB : Nat := 10

/-- `const MB: u32 = 20;` -/
def MB : Nat := 20

/-- `const GB: u32 = 30;` -/
def GB : Nat := 30

/-- `const TB: u32 = 40;` -/
def TB : Nat := 40

/-- `fn err_message(s: &str) -> String`: the `InvalidFormat` message carrying
the offending input. -/
def err_message (s : String) : String :=
  "invalid format for unit size: " ++ s ++ ". Acceptable formats are nB, nKB, nMB,nGB, nTB"

/-- `const fn down_from(lhs: f32, dec: u32) -> f32 { lhs * (2_u64.pow(dec) as f32) }`.
The `u64 → f32` cast is exact for every exponent used (at most `2^40`). -/
def down_from (lhs : ℚ) (dec : Nat) : ℚ := lhs * 2 ^ dec

/-- `const fn up_to(lhs: f32, dec: u32) -> f32 { lhs / (2_u64.pow(dec) as f32) }`. -/
def up_to (lhs : ℚ) (dec : Nat) : ℚ := lhs / 2 ^ dec

/-- `pub struct Unit(f32);` with the byte count idealized as an exact rational. -/
structure Unit where
  val : ℚ
deriving DecidableEq

/-- `pub const fn as_bytes(&self) -> f32 { self.0 }` -/
def Unit.as_bytes (u : Unit) : ℚ := u.val

/-- `pub const fn from_bytes(value: f32) -> Self { Self(value) }` -/
def Unit.from_bytes (value : ℚ) : Unit := ⟨value⟩

/-- `pub const fn from_kilo_bytes(value: f32) -> Self { Self(down_from(value, KB)) }` -/
def Unit.from_kilo_bytes (value : ℚ) : Unit := ⟨down_from value KB⟩

/-- `pub const fn from_mega_bytes(value: f32) -> Self { Self(down_from(value, MB)) }` -/
def Unit.from_mega_bytes (value : ℚ) : Unit := ⟨down_from value MB⟩

/-- `pub const fn from_giga_bytes(value: f32) -> Self { Self(down_from(value, GB)) }` -/
def Unit.from_giga_bytes (value : ℚ) : Unit := ⟨down_from value GB⟩

/-- `pub const fn from_tera_bytes(value: f32) -> Self { Self(down_from(value, TB)) }` -/
def Unit.from_tera_bytes (value : ℚ) : Unit := ⟨down_from value TB⟩

/-- `impl Add for Unit` (from `impl_op!(Add, add, +)`). -/
def Unit.add (a b : Unit) : Unit := ⟨a.val + b.val⟩

/-- `impl Sub for Unit` (from `impl_op!(Sub, sub, -)`). -/
def Unit.sub (a b : Unit) : Unit := ⟨a.val - b.val⟩

/-- `impl Mul for Unit` (from `impl_op!(Mul, mul, *)`). -/
def Unit.mul (a b : Unit) : Unit := ⟨a.val * b.val⟩

/-- `impl Div for Unit` (from `impl_op!(Div, div, /)`).  Division is exact
rational division; `ℚ` division by zero yields `0` where IEEE `f32` would
produce an infinity or NaN. -/
def Unit.div (a b : Unit) : Unit := ⟨a.val / b.val⟩

/-- `impl AddAssign for Unit`: `self.0 = self.0 + rhs.0`, modelled by returning
the new value of the mutated left operand. -/
def Unit.add_assign (a b : Unit) : Unit := ⟨a.val + b.val⟩

/-- `impl SubAssign for Unit`, state-passing form. -/
def Unit.sub_assign (a b : Unit) : Unit := ⟨a.val - b.val⟩

/-- `impl MulAssign for Unit`, state-passing form. -/
def Unit.mul_assign (a b : Unit) : Unit := ⟨a.val * b.val⟩

/-- `impl DivAssign for Unit`, state-passing form. -/
def Unit.div_assign (a b : Unit) : Unit := ⟨a.val / b.val⟩

/-- Number of bytes of the UTF-8 encoding of a character (models the byte
width that Rust byte indices advance over). -/
def utf8Len (c : Char) : Nat :=
  if c.toNat ≤ 0x7F then 1
  else if c.toNat ≤ 0x7FF then 2
  else if c.toNat ≤ 0xFFFF then 3
  else 4

/-- Models `char::is_numeric` on the code points this development uses: ASCII
digits, Arabic-Indic digits (U+0660–U+0669) and Devanagari digits
(U+0966–U+096F).  The remainder of the Unicode `Nd`/`Nl`/`No` table is elided;
all characters appearing in the claims fall in these ranges. -/
def rustIsNumeric (c : Char) : Bool :=
  decide ((48 ≤ c.toNat ∧ c.toNat ≤ 57) ∨ (1632 ≤ c.toNat ∧ c.toNat ≤ 1641) ∨
    (2406 ≤ c.toNat ∧ c.toNat ≤ 2415))

/-- Whitespace as trimmed by `str::trim`, restricted to the ASCII whitespace
characters (the claims only exercise plain spaces). -/
def isWs (c : Char) : Bool := c == ' ' || c == '\t' || c == '\n' || c == '\r'

/-- ASCII decimal digit, as accepted by `str::parse::<f32>`. -/
def isAsciiDigit (c : Char) : Bool := decide (48 ≤ c.toNat ∧ c.toNat ≤ 57)

/-- `str::trim`: drop whitespace from both ends. -/
def trim (l : List Char) : List Char :=
  ((l.dropWhile isWs).reverse.dropWhile isWs).reverse

/-- `str::replace(",", ".")` on the numeric prefix (both characters are one
byte, so the byte-string replace is a character map). -/
def replaceComma (l : List Char) : List Char :=
  l.map fun c => if c = ',' then '.' else c

/-- `s.rfind(char::is_numeric)`: position of the last numeric character.  Rust
returns the byte offset of that character; the embedding returns its character
index and accounts for the byte width in `splitAtChecked`. -/
def rfindNumeric : List Char → Option Nat
  | [] => none
  | c :: cs =>
    match rfindNumeric cs with
    | some j => some (j + 1)
    | none => if rustIsNumeric c then some 0 else none

/-- `s.split_at_checked(index + 1)` where `index` is the byte offset of the
character at character-index `i`: the byte position `index + 1` is a UTF-8
character boundary exactly when that character is one byte wide, in which case
the split separates the first `i + 1` characters from the rest; otherwise the
checked split yields `None`. -/
def splitAtChecked (l : List Char) (i : Nat) : Option (List Char × List Char) :=
  match l[i]? with
  | none => none
  | some c => if utf8Len c = 1 then some (l.take (i + 1), l.drop (i + 1)) else none

/-- Value of a string of ASCII digits, most significant first. -/
def digitsToNat (ds : List Char) : Nat :=
  ds.foldl (fun a c => 10 * a + (c.toNat - 48)) 0

/-- Optional exponent clause `([eE] Sign? Digit+)?` of the float grammar,
applied to an already-parsed mantissa. -/
def parseExpPart (mant : ℚ) : List Char → Option ℚ
  | [] => some mant
  | e :: rest =>
    if e = 'e' ∨ e = 'E' then
      let esgn : Int := if rest.head? = some '-' then -1 else 1
      let r1 := if rest.head? = some '+' ∨ rest.head? = some '-' then rest.tail else rest
      let ed := r1.takeWhile isAsciiDigit
      let r2 := r1.dropWhile isAsciiDigit
      if ed = [] ∨ r2 ≠ [] then none
      else some (mant * 10 ^ (esgn * (digitsToNat ed : Int)))
    else none

/-- Unsigned part of the float grammar:
`(Digit+ | Digit+ '.' Digit* | Digit* '.' Digit+) Exp?`. -/
def parseF32core (s : List Char) : Option ℚ :=
  let ip := s.takeWhile isAsciiDigit
  let s2 := s.dropWhile isAsciiDigit
  if s2 = [] then if ip = [] then none else some (digitsToNat ip : ℚ)
  else if s2.head? = some '.' then
    let s3 := s2.tail
    let fp := s3.takeWhile isAsciiDigit
    let s4 := s3.dropWhile isAsciiDigit
    if ip = [] ∧ fp = [] then none
    else parseExpPart ((digitsToNat ip : ℚ) + (digitsToNat fp : ℚ) / 10 ^ fp.length) s4
  else if ip = [] then none
  else parseExpPart (digitsToNat ip : ℚ) s2

/-- `str::parse::<f32>` with exact rational semantics: optional sign followed
by the unsigned grammar. -/
def parseF32 (s : List Char) : Option ℚ :=
  if s.head? = some '+' then parseF32core s.tail
  else if s.head? = some '-' then (parseF32core s.tail).map fun q => -q
  else parseF32core s

/-- `impl FromStr for Unit` (`type Err = String`): locate the last numeric
character, split after it (checked), normalize and parse the numeric prefix,
and match the trimmed suffix case-sensitively. -/
def Unit.from_str (s : String) : Except String Unit :=
  match rfindNumeric s.data with
  | none => .error (err_message s)
  | some i =>
    match splitAtChecked s.data i with
    | none => .error (err_message s)
    | some (value, unitStr) =>
      match parseF32 (replaceComma (trim value)) with
      | none => .error (err_message s ++ ": invalid float literal")
      | some v =>
        let u := trim unitStr
        if u = "B".data then .ok (Unit.from_bytes v)
        else if u = "KB".data then .ok (Unit.from_kilo_bytes v)
        else if u = "MB".data then .ok (Unit.from_mega_bytes v)
        else if u = "GB".data then .ok (Unit.from_giga_bytes v)
        else if u = "TB".data then .ok (Unit.from_tera_bytes v)
        else .error (err_message s)

/-- The decimal digit characters used by the renderers. -/
def digitChar (d : Nat) : Char :=
  if d = 0 then '0' else if d = 1 then '1' else if d = 2 then '2'
  else if d = 3 then '3' else if d = 4 then '4' else if d = 5 then '5'
  else if d = 6 then '6' else if d = 7 then '7' else if d = 8 then '8' else '9'

/-- Decimal rendering of a natural number, fuelled so that it reduces in the
kernel; the fuel `n + 1` always suffices. -/
def natCharsAux : Nat → Nat → List Char
  | 0, _ => []
  | fuel + 1, n =>
    if n < 10 then [digitChar n] else natCharsAux fuel (n / 10) ++ [digitChar (n % 10)]

/-- Decimal rendering of a natural number. -/
def natChars (n : Nat) : List Char := natCharsAux (n + 1) n

/-- Round to the nearest integer, ties to even: the rounding Rust's fixed
precision float formatting performs on the exact decimal value. -/
def roundHalfEven (x : ℚ) : Int :=
  let f := ⌊x⌋
  let r := x - f
  if r < 1 / 2 then f
  else if 1 / 2 < r then f + 1
  else if f % 2 = 0 then f else f + 1

/-- Rust's `{:.2}` formatting of a (finite) float value: round the exact value
to two fraction digits and render with a forced two-digit fraction. -/
def fmtFixed2 (q : ℚ) : List Char :=
  let m := roundHalfEven (q * 100)
  let a := m.natAbs
  let ds := natChars (a / 100) ++ '.' :: [digitChar (a / 10 % 10), digitChar (a % 10)]
  if m < 0 then '-' :: ds else ds

/-- Smallest number of decimal fraction digits that expresses `q` exactly, if
one exists below the fuel bound (every finite `f32` value needs at most 149). -/
def fracLenAux (q : ℚ) : Nat → Nat → Option Nat
  | 0, _ => none
  | fuel + 1, k => if (q * 10 ^ k).den = 1 then some k else fracLenAux q fuel (k + 1)

/-- Fraction length used by the plain float renderer. -/
def fracLen (q : ℚ) : Option Nat := fracLenAux q 200 0

/-- Left-pad a digit string with zeros to width `k`. -/
def padZeros (k : Nat) (s : List Char) : List Char :=
  List.replicate (k - s.length) '0' ++ s

/-- Plain rendering of a nonnegative value: integer values print with no
decimal point, fractional values with the shortest exact fraction.  The last
arm is unreachable for values of binary floats (their denominators are powers
of two) and merely keeps the function total. -/
def fmtPlainPos (q : ℚ) : List Char :=
  match fracLen q with
  | some k =>
    if k = 0 then natChars q.num.natAbs
    else
      natChars ((q * 10 ^ k).num.natAbs / 10 ^ k) ++
        '.' :: padZeros k (natChars ((q * 10 ^ k).num.natAbs % 10 ^ k))
  | none => natChars q.num.natAbs ++ '/' :: natChars q.den

/-- Rust's `{}` (Display) formatting of a finite float value: sign followed by
the shortest exact decimal. -/
def fmtPlain (q : ℚ) : List Char :=
  if q < 0 then '-' :: fmtPlainPos (-q) else fmtPlainPos q

/-- `let value = if self.0.is_sign_negative() { self.0 * -1_f32 } else { self.0 }`:
the sign-insensitive magnitude used for the threshold checks (negative zero
has no counterpart in `ℚ`). -/
def absVal (q : ℚ) : ℚ := if q < 0 then q * -1 else q

/-- Body of `impl Display for Unit`: the tiers are checked in descending order
against the magnitude `absVal`, and the signed count scaled by the selected
tier is rendered. -/
def displayChars (q : ℚ) : List Char :=
  let value := absVal q
  if down_from 1 TB ≤ value then fmtFixed2 (up_to q TB) ++ "TB".data
  else if down_from 1 GB ≤ value then fmtFixed2 (up_to q GB) ++ "GB".data
  else if down_from 1 MB ≤ value then fmtFixed2 (up_to q MB) ++ "MB".data
  else if down_from 1 KB ≤ value then fmtFixed2 (up_to q KB) ++ "KB".data
  else fmtPlain q ++ "B".data

/-- `Unit::to_string()` through the `Display` implementation. -/
def Unit.to_display_string (u : Unit) : String := String.mk (displayChars u.val)

/-- Spec-side definition (§4.3 of the spec, worded independently of the code):
the largest tier, checked in descending order TB, GB, MB, KB, B, whose
threshold the absolute value of the byte count meets. -/
def selectedTier (q : ℚ) : String :=
  if 2 ^ 40 ≤ |q| then "TB"
  else if 2 ^ 30 ≤ |q| then "GB"
  else if 2 ^ 20 ≤ |q| then "MB"
  else if 2 ^ 10 ≤ |q| then "KB"
  else "B"

/-- `UnitVisitor::expecting` writes this literal. -/
def serde_expecting : String := "string with the format: 99TB|GB|MB|B"

/-- `impl Serialize for Unit`: `serializer.serialize_str(&self.to_string())`. -/
def Unit.serialize (u : Unit) : String := u.to_display_string

/-- `UnitVisitor::visit_str`: `Unit::from_str(v).map_err(E::custom)`, with
`E::custom` modelled as preserving the parse-error message. -/
def Unit.deserialize (s : String) : Except String Unit :=
  match Unit.from_str s with
  | .ok u => .ok u
  | .error e => .error e

/-! ### Helper lemmas about the parsing pipeline -/

theorem mem_dropWhile_of_not {p : Char → Bool} {c : Char} {l : List Char}
    (h : c ∈ l) (hc : p c = false) : c ∈ l.dropWhile p := by
  induction l with
  | nil => cases h
  | cons a t ih =>
    rw [List.dropWhile_cons]
    by_cases hp : p a = true
    · rw [if_pos hp]
      rcases List.mem_cons.mp h with rfl | hmem
      · rw [hp] at hc; cases hc
      · exact ih hmem
    · rw [if_neg hp]; exact h

theorem mem_trim {c : Char} {l : List Char} (h : c ∈ l) (hw : isWs c = false) :
    c ∈ trim l := by
  unfold trim
  exact List.mem_reverse.mpr
    (mem_dropWhile_of_not (List.mem_reverse.mpr (mem_dropWhile_of_not h hw)) hw)

theorem mem_replaceComma {c : Char} {l : List Char} (h : c ∈ l) (hc : c ≠ ',') :
    c ∈ replaceComma l := by
  unfold replaceComma
  have hmap := List.mem_map_of_mem (fun c => if c = ',' then '.' else c) h
  simpa [hc] using hmap

theorem mem_take_succ_of_getElem {l : List Char} {i : Nat} {c : Char}
    (h : l[i]? = some c) : c ∈ l.take (i + 1) := by
  have h2 : (l.take (i + 1))[i]? = some c := by
    rw [List.getElem?_take, if_pos (Nat.lt_succ_self i)]; exact h
  rw [List.getElem?_eq_some] at h2
  obtain ⟨hi, rfl⟩ := h2
  exact List.getElem_mem hi

theorem rfindNumeric_eq_none {l : List Char} :
    rfindNumeric l = none ↔ ∀ c ∈ l, rustIsNumeric c = false := by
  induction l with
  | nil => simp [rfindNumeric]
  | cons a t ih =>
    constructor
    · intro h c hc
      cases ht : rfindNumeric t with
      | some j => rw [rfindNumeric, ht] at h; cases h
      | none =>
        rw [rfindNumeric, ht] at h
        rcases List.mem_cons.mp hc with rfl | hm
        · by_cases hra : rustIsNumeric c = true
          · rw [if_pos hra] at h; cases h
          · exact Bool.not_eq_true _ ▸ eq_false_of_ne_true hra
        · exact (ih.mp ht) c hm
    · intro h
      have ht : rfindNumeric t = none :=
        ih.mpr fun c hc => h c (List.mem_cons_of_mem _ hc)
      rw [rfindNumeric, ht, if_neg]
      rw [h a (List.mem_cons_self a t)]
      simp

theorem rfindNumeric_some_getElem {l : List Char} {i : Nat}
    (h : rfindNumeric l = some i) :
    ∃ c, l[i]? = some c ∧ rustIsNumeric c = true := by
  induction l generalizing i with
  | nil => cases h
  | cons a t ih =>
    rw [rfindNumeric] at h
    cases ht : rfindNumeric t with
    | some j =>
      rw [ht] at h
      injection h with h'
      subst h'
      obtain ⟨c, hc, hr⟩ := ih ht
      exact ⟨c, by simpa using hc, hr⟩
    | none =>
      rw [ht] at h
      by_cases hra : rustIsNumeric a = true
      · rw [if_pos hra] at h
        injection h with h'
        subst h'
        exact ⟨a, by simp, hra⟩
      · rw [if_neg hra] at h; cases h

theorem splitAtChecked_spec {l : List Char} {i : Nat} {c : Char} (hg : l[i]? = some c) :
    splitAtChecked l i =
      if utf8Len c = 1 then some (l.take (i + 1), l.drop (i + 1)) else none := by
  unfold splitAtChecked
  rw [hg]

theorem splitAtChecked_eq_some {l : List Char} {i : Nat} {pr : List Char × List Char}
    (h : splitAtChecked l i = some pr) :
    pr.1 = l.take (i + 1) ∧ pr.2 = l.drop (i + 1) := by
  cases hg : l[i]? with
  | none =>
    rw [show splitAtChecked l i = none by unfold splitAtChecked; rw [hg]] at h
    cases h
  | some c =>
    rw [splitAtChecked_spec hg] at h
    by_cases h1 : utf8Len c = 1
    · rw [if_pos h1] at h
      injection h with h'
      rw [← h']
      exact ⟨rfl, rfl⟩
    · rw [if_neg h1] at h; cases h

theorem splitAtChecked_eq_none_of {l : List Char} {i : Nat} {c : Char}
    (hg : l[i]? = some c) (h1 : utf8Len c ≠ 1) : splitAtChecked l i = none := by
  rw [splitAtChecked_spec hg, if_neg h1]

theorem toNat_big_of_utf8Len_ne_one {c : Char} (h : utf8Len c ≠ 1) :
    128 ≤ c.toNat := by
  by_contra hlt
  push_neg at hlt
  exact h (by unfold utf8Len; rw [if_pos (by omega)])

theorem isAsciiDigit_iff {c : Char} :
    isAsciiDigit c = true ↔ 48 ≤ c.toNat ∧ c.toNat ≤ 57 := by
  unfold isAsciiDigit
  exact decide_eq_true_iff

theorem isWs_toNat {c : Char} (h : isWs c = true) :
    c.toNat = 32 ∨ c.toNat = 9 ∨ c.toNat = 10 ∨ c.toNat = 13 := by
  unfold isWs at h
  simp only [Bool.or_eq_true, beq_iff_eq] at h
  rcases h with ((rfl | rfl) | rfl) | rfl <;> decide

theorem bigChar_facts {c : Char} (h : 128 ≤ c.toNat) :
    isAsciiDigit c = false ∧ isWs c = false ∧ c ≠ ',' ∧ c ≠ '.' ∧ c ≠ '+' ∧
    c ≠ '-' ∧ c ≠ 'e' ∧ c ≠ 'E' := by
  refine ⟨?_, ?_, ?_, ?_, ?_, ?_, ?_, ?_⟩
  · cases hb : isAsciiDigit c with
    | false => rfl
    | true => exact absurd (isAsciiDigit_iff.mp hb).2 (by omega)
  · cases hb : isWs c with
    | false => rfl
    | true => rcases isWs_toNat hb with h' | h' | h' | h' <;> omega
  all_goals intro he; rw [he] at h; revert h; decide

theorem parseExpPart_eq_none {c : Char} {l : List Char} (m : ℚ) (h : c ∈ l)
    (h1 : isAsciiDigit c = false) (h2 : c ≠ '+') (h3 : c ≠ '-')
    (h4 : c ≠ 'e') (h5 : c ≠ 'E') : parseExpPart m l = none := by
  cases l with
  | nil => cases h
  | cons e rest =>
    simp only [parseExpPart]
    by_cases he : e = 'e' ∨ e = 'E'
    · rw [if_pos he]
      have hcr : c ∈ rest := by
        rcases List.mem_cons.mp h with rfl | hm
        · rcases he with rfl | rfl
          · exact absurd rfl h4
          · exact absurd rfl h5
        · exact hm
      have hcr1 :
          c ∈ if rest.head? = some '+' ∨ rest.head? = some '-' then rest.tail else rest := by
        split_ifs with hh
        · cases rest with
          | nil => cases hcr
          | cons x t =>
            rcases List.mem_cons.mp hcr with rfl | hm
            · rcases hh with hx | hx
              · simp only [List.head?_cons, Option.some.injEq] at hx
                exact absurd hx h2
              · simp only [List.head?_cons, Option.some.injEq] at hx
                exact absurd hx h3
            · simpa using hm
        · exact hcr
      have hr2 :
          ¬((if rest.head? = some '+' ∨ rest.head? = some '-' then rest.tail
              else rest).dropWhile isAsciiDigit = []) := by
        intro hnil
        have hmem := mem_dropWhile_of_not hcr1 h1
        rw [hnil] at hmem
        cases hmem
      rw [if_pos (Or.inr hr2)]
    · rw [if_neg he]

theorem parseF32core_eq_none {c : Char} {l : List Char} (h : c ∈ l)
    (h1 : isAsciiDigit c = false) (hdot : c ≠ '.') (h2 : c ≠ '+') (h3 : c ≠ '-')
    (h4 : c ≠ 'e') (h5 : c ≠ 'E') : parseF32core l = none := by
  have hs2 : c ∈ l.dropWhile isAsciiDigit := mem_dropWhile_of_not h h1
  have hne : ¬(l.dropWhile isAsciiDigit = []) := by
    intro hn; rw [hn] at hs2; cases hs2
  simp only [parseF32core]
  rw [if_neg hne]
  by_cases hh : (l.dropWhile isAsciiDigit).head? = some '.'
  · rw [if_pos hh]
    have hct : c ∈ (l.dropWhile isAsciiDigit).tail := by
      cases hs2' : l.dropWhile isAsciiDigit with
      | nil => exact absurd hs2' hne
      | cons x t =>
        rw [hs2'] at hh hs2
        simp only [List.head?_cons, Option.some.injEq] at hh
        subst hh
        rcases List.mem_cons.mp hs2 with rfl | hm
        · exact absurd rfl hdot
        · simpa using hm
    have hs4 : c ∈ ((l.dropWhile isAsciiDigit).tail).dropWhile isAsciiDigit :=
      mem_dropWhile_of_not hct h1
    split_ifs with hp
    · rfl
    · exact parseExpPart_eq_none _ hs4 h1 h2 h3 h4 h5
  · rw [if_neg hh]
    split_ifs with hip
    · rfl
    · exact parseExpPart_eq_none _ hs2 h1 h2 h3 h4 h5

theorem parseF32_eq_none {c : Char} {l : List Char} (h : c ∈ l)
    (h1 : isAsciiDigit c = false) (hdot : c ≠ '.') (h2 : c ≠ '+') (h3 : c ≠ '-')
    (h4 : c ≠ 'e') (h5 : c ≠ 'E') : parseF32 l = none := by
  simp only [parseF32]
  by_cases hp : l.head? = some '+'
  · rw [if_pos hp]
    cases l with
    | nil => cases h
    | cons x t =>
      simp only [List.head?_cons, Option.some.injEq] at hp
      subst hp
      have hct : c ∈ t := by
        rcases List.mem_cons.mp h with rfl | hm
        · exact absurd rfl h2
        · exact hm
      simpa using parseF32core_eq_none hct h1 hdot h2 h3 h4 h5
  · rw [if_neg hp]
    by_cases hn : l.head? = some '-'
    · rw [if_pos hn]
      cases l with
      | nil => cases h
      | cons x t =>
        simp only [List.head?_cons, Option.some.injEq] at hn
        subst hn
        have hct : c ∈ t := by
          rcases List.mem_cons.mp h with rfl | hm
          · exact absurd rfl h3
          · exact hm
        have hcore := parseF32core_eq_none hct h1 hdot h2 h3 h4 h5
        simp [hcore]
    · rw [if_neg hn]
      exact parseF32core_eq_none h h1 hdot h2 h3 h4 h5

/-- When the last numeric character sits outside the ASCII range, the numeric
prefix handed to the float parser cannot parse. -/
theorem parse_prefix_none_of_big {l : List Char} {i : Nat} {c : Char}
    (hg : l[i]? = some c) (hbig : 128 ≤ c.toNat) :
    parseF32 (replaceComma (trim (l.take (i + 1)))) = none := by
  obtain ⟨hd, hw, hcomma, hdot, hplus, hminus, he, hE⟩ := bigChar_facts hbig
  have hmem1 : c ∈ l.take (i + 1) := mem_take_succ_of_getElem hg
  have hmem2 : c ∈ trim (l.take (i + 1)) := mem_trim hmem1 hw
  have hmem3 : c ∈ replaceComma (trim (l.take (i + 1))) := mem_replaceComma hmem2 hcomma
  exact parseF32_eq_none hmem3 hd hdot hplus hminus he hE

/-! ### Helper lemmas about the formatting pipeline -/

theorem digitChar_isDigit (d : Nat) : isAsciiDigit (digitChar d) = true := by
  unfold digitChar
  split_ifs <;> decide

theorem digitChar_not_alpha (d : Nat) : (digitChar d).isAlpha = false := by
  unfold digitChar
  split_ifs <;> decide

theorem digitChar_ne_dot (d : Nat) : digitChar d ≠ '.' := by
  unfold digitChar
  split_ifs <;> decide

theorem digitChar_ne_dash (d : Nat) : digitChar d ≠ '-' := by
  unfold digitChar
  split_ifs <;> decide

theorem natCharsAux_mem {fuel n : Nat} {c : Char} (h : c ∈ natCharsAux fuel n) :
    ∃ d, c = digitChar d := by
  induction fuel generalizing n with
  | zero => cases h
  | succ f ih =>
    rw [natCharsAux] at h
    by_cases hn : n < 10
    · rw [if_pos hn] at h
      exact ⟨n, List.mem_singleton.mp h⟩
    · rw [if_neg hn] at h
      rcases List.mem_append.mp h with h' | h'
      · exact ih h'
      · exact ⟨n % 10, List.mem_singleton.mp h'⟩

theorem natChars_mem {n : Nat} {c : Char} (h : c ∈ natChars n) : ∃ d, c = digitChar d :=
  natCharsAux_mem h

theorem mem_padZeros {k : Nat} {s : List Char} {c : Char} (h : c ∈ padZeros k s) :
    c = '0' ∨ c ∈ s := by
  unfold padZeros at h
  rcases List.mem_append.mp h with h' | h'
  · exact Or.inl (List.eq_of_mem_replicate h')
  · exact Or.inr h'

theorem roundHalfEven_cases (x : ℚ) :
    roundHalfEven x = ⌊x⌋ ∨ roundHalfEven x = ⌊x⌋ + 1 := by
  simp only [roundHalfEven]
  split_ifs <;> simp

theorem roundHalfEven_nonneg {x : ℚ} (hx : 0 ≤ x) : 0 ≤ roundHalfEven x := by
  have hf : (0 : ℤ) ≤ ⌊x⌋ := Int.floor_nonneg.mpr hx
  rcases roundHalfEven_cases x with h | h <;> omega

theorem roundHalfEven_neg {x : ℚ} (hx : x ≤ -100) : roundHalfEven x < 0 := by
  have h100 : ⌊(-100 : ℚ)⌋ = -100 := by with_unfolding_all rfl
  have hf : ⌊x⌋ ≤ -100 := h100 ▸ Int.floor_le_floor hx
  rcases roundHalfEven_cases x with h | h <;> omega

theorem fmtFixed2_eq (q : ℚ) :
    fmtFixed2 q =
      (if roundHalfEven (q * 100) < 0 then ['-'] else []) ++
        (natChars ((roundHalfEven (q * 100)).natAbs / 100) ++
          '.' :: [digitChar ((roundHalfEven (q * 100)).natAbs / 10 % 10),
            digitChar ((roundHalfEven (q * 100)).natAbs % 10)]) := by
  simp only [fmtFixed2]
  split_ifs <;> simp

theorem dot_not_mem_sign_nat {m : Int} {n : Nat} :
    '.' ∉ (if m < 0 then ['-'] else []) ++ natChars n := by
  intro h
  rcases List.mem_append.mp h with h' | h'
  · split_ifs at h'
    · exact absurd (List.mem_singleton.mp h') (by decide)
    · cases h'
  · obtain ⟨d, hd⟩ := natChars_mem h'
    exact digitChar_ne_dot d hd.symm

theorem mem_fmtFixed2 {q : ℚ} {c : Char} (h : c ∈ fmtFixed2 q) :
    c = '-' ∨ c = '.' ∨ ∃ d, c = digitChar d := by
  rw [fmtFixed2_eq] at h
  rcases List.mem_append.mp h with h' | h'
  · split_ifs at h'
    · exact Or.inl (List.mem_singleton.mp h')
    · cases h'
  · rcases List.mem_append.mp h' with h2 | h2
    · exact Or.inr (Or.inr (natChars_mem h2))
    · rcases List.mem_cons.mp h2 with rfl | h3
      · exact Or.inr (Or.inl rfl)
      · rcases List.mem_cons.mp h3 with rfl | h4
        · exact Or.inr (Or.inr ⟨_, rfl⟩)
        · rcases List.mem_cons.mp h4 with rfl | h5
          · exact Or.inr (Or.inr ⟨_, rfl⟩)
          · cases h5

theorem fmtFixed2_not_alpha {q : ℚ} {c : Char} (h : c ∈ fmtFixed2 q) :
    c.isAlpha = false := by
  rcases mem_fmtFixed2 h with rfl | rfl | ⟨d, rfl⟩
  · decide
  · decide
  · exact digitChar_not_alpha d

theorem fmtFixed2_head_neg {q : ℚ} (h : roundHalfEven (q * 100) < 0) :
    ∃ t, fmtFixed2 q = '-' :: t := by
  rw [fmtFixed2_eq, if_pos h]
  exact ⟨_, rfl⟩

theorem fmtFixed2_no_dash {q : ℚ} (h : ¬roundHalfEven (q * 100) < 0) :
    '-' ∉ fmtFixed2 q := by
  rw [fmtFixed2_eq, if_neg h]
  intro hm
  simp only [List.nil_append] at hm
  rcases List.mem_append.mp hm with h' | h'
  · obtain ⟨d, hd⟩ := natChars_mem h'
    exact digitChar_ne_dash d hd.symm
  · rcases List.mem_cons.mp h' with h2 | h2
    · exact absurd h2 (by decide)
    · rcases List.mem_cons.mp h2 with h3 | h3
      · exact digitChar_ne_dash _ h3.symm
      · rcases List.mem_cons.mp h3 with h4 | h4
        · exact digitChar_ne_dash _ h4.symm
        · cases h4

theorem fmtPlainPos_of_none {q : ℚ} (hf : fracLen q = none) :
    fmtPlainPos q = natChars q.num.natAbs ++ '/' :: natChars q.den := by
  unfold fmtPlainPos
  rw [hf]

theorem fmtPlainPos_of_some {q : ℚ} {k : Nat} (hf : fracLen q = some k) :
    fmtPlainPos q =
      if k = 0 then natChars q.num.natAbs
      else
        natChars ((q * 10 ^ k).num.natAbs / 10 ^ k) ++
          '.' :: padZeros k (natChars ((q * 10 ^ k).num.natAbs % 10 ^ k)) := by
  unfold fmtPlainPos
  rw [hf]

theorem fracLen_of_den_one {q : ℚ} (h : q.den = 1) : fracLen q = some 0 := by
  have h0 : (q * 10 ^ 0).den = 1 := by
    rw [pow_zero, mul_one]
    exact h
  unfold fracLen
  rw [show (200 : Nat) = 199 + 1 from rfl, fracLenAux, if_pos h0]

theorem mem_fmtPlainPos {q : ℚ} {c : Char} (h : c ∈ fmtPlainPos q) :
    c = '.' ∨ c = '/' ∨ c = '0' ∨ ∃ d, c = digitChar d := by
  cases hf : fracLen q with
  | none =>
    rw [fmtPlainPos_of_none hf] at h
    rcases List.mem_append.mp h with h' | h'
    · exact Or.inr (Or.inr (Or.inr (natChars_mem h')))
    · rcases List.mem_cons.mp h' with rfl | h2
      · exact Or.inr (Or.inl rfl)
      · exact Or.inr (Or.inr (Or.inr (natChars_mem h2)))
  | some k =>
    rw [fmtPlainPos_of_some hf] at h
    split_ifs at h
    · exact Or.inr (Or.inr (Or.inr (natChars_mem h)))
    · rcases List.mem_append.mp h with h' | h'
      · exact Or.inr (Or.inr (Or.inr (natChars_mem h')))
      · rcases List.mem_cons.mp h' with rfl | h2
        · exact Or.inl rfl
        · rcases mem_padZeros h2 with rfl | h3
          · exact Or.inr (Or.inr (Or.inl rfl))
          · exact Or.inr (Or.inr (Or.inr (natChars_mem h3)))

theorem fmtPlainPos_not_alpha {q : ℚ} {c : Char} (h : c ∈ fmtPlainPos q) :
    c.isAlpha = false := by
  rcases mem_fmtPlainPos h with rfl | rfl | rfl | ⟨d, rfl⟩
  · decide
  · decide
  · decide
  · exact digitChar_not_alpha d

theorem fmtPlain_not_alpha {q : ℚ} {c : Char} (h : c ∈ fmtPlain q) :
    c.isAlpha = false := by
  unfold fmtPlain at h
  split_ifs at h
  · rcases List.mem_cons.mp h with rfl | h'
    · decide
    · exact fmtPlainPos_not_alpha h'
  · exact fmtPlainPos_not_alpha h

theorem fmtPlainPos_no_dash {q : ℚ} : '-' ∉ fmtPlainPos q := by
  intro h
  rcases mem_fmtPlainPos h with h' | h' | h' | ⟨d, h'⟩
  · exact absurd h' (by decide)
  · exact absurd h' (by decide)
  · exact absurd h' (by decide)
  · exact digitChar_ne_dash d h'.symm

theorem fmtPlain_head_neg {q : ℚ} (h : q < 0) : ∃ t, fmtPlain q = '-' :: t := by
  unfold fmtPlain
  rw [if_pos h]
  exact ⟨_, rfl⟩

theorem fmtPlain_nonneg_eq {q : ℚ} (h : ¬q < 0) : fmtPlain q = fmtPlainPos q := by
  unfold fmtPlain
  rw [if_neg h]

theorem fmtPlain_no_dot_of_den_one {q : ℚ} (h : q.den = 1) : '.' ∉ fmtPlain q := by
  unfold fmtPlain
  split_ifs with hq
  · intro hm
    rcases List.mem_cons.mp hm with h' | h'
    · exact absurd h' (by decide)
    · have hden : (-q).den = 1 := by rw [Rat.neg_den]; exact h
      rw [fmtPlainPos_of_some (fracLen_of_den_one hden), if_pos rfl] at h'
      obtain ⟨d, hd⟩ := natChars_mem h'
      exact digitChar_ne_dot d hd.symm
  · intro hm
    rw [fmtPlainPos_of_some (fracLen_of_den_one h), if_pos rfl] at hm
    obtain ⟨d, hd⟩ := natChars_mem hm
    exact digitChar_ne_dot d hd.symm

/-! ### Helper lemmas about tier selection -/

theorem absVal_eq_abs (q : ℚ) : absVal q = |q| := by
  unfold absVal
  split_ifs with h
  · rw [abs_of_neg h, mul_neg_one]
  · rw [abs_of_nonneg (le_of_not_lt h)]

theorem down_from_one_TB : down_from 1 TB = (2 ^ 40 : ℚ) := by
  unfold down_from TB
  rw [one_mul]

theorem down_from_one_GB : down_from 1 GB = (2 ^ 30 : ℚ) := by
  unfold down_from GB
  rw [one_mul]

theorem down_from_one_MB : down_from 1 MB = (2 ^ 20 : ℚ) := by
  unfold down_from MB
  rw [one_mul]

theorem down_from_one_KB : down_from 1 KB = (2 ^ 10 : ℚ) := by
  unfold down_from KB
  rw [one_mul]

theorem displayChars_eq (q : ℚ) :
    displayChars q =
      if (2 ^ 40 : ℚ) ≤ |q| then fmtFixed2 (up_to q TB) ++ "TB".data
      else if (2 ^ 30 : ℚ) ≤ |q| then fmtFixed2 (up_to q GB) ++ "GB".data
      else if (2 ^ 20 : ℚ) ≤ |q| then fmtFixed2 (up_to q MB) ++ "MB".data
      else if (2 ^ 10 : ℚ) ≤ |q| then fmtFixed2 (up_to q KB) ++ "KB".data
      else fmtPlain q ++ "B".data := by
  unfold displayChars
  rw [absVal_eq_abs, down_from_one_TB, down_from_one_GB, down_from_one_MB, down_from_one_KB]

theorem up_to_le_neg_one {q : ℚ} {e : Nat} (h : q ≤ -(2 ^ e)) : up_to q e ≤ -1 := by
  unfold up_to
  rw [div_le_iff₀ (by positivity : (0 : ℚ) < 2 ^ e)]
  linarith

theorem up_to_nonneg {q : ℚ} {e : Nat} (h : 0 ≤ q) : 0 ≤ up_to q e := by
  unfold up_to
  positivity

theorem displayChars_no_dash {q : ℚ} (hq : 0 ≤ q) : '-' ∉ displayChars q := by
  rw [displayChars_eq]
  have hnn : ∀ e : Nat, ¬roundHalfEven (up_to q e * 100) < 0 := fun e =>
    not_lt.mpr (roundHalfEven_nonneg (mul_nonneg (up_to_nonneg hq) (by norm_num)))
  split_ifs with h1 h2 h3 h4 <;> intro hm <;> rcases List.mem_append.mp hm with h' | h'
  · exact fmtFixed2_no_dash (hnn TB) h'
  · exact absurd h' (by decide)
  · exact fmtFixed2_no_dash (hnn GB) h'
  · exact absurd h' (by decide)
  · exact fmtFixed2_no_dash (hnn MB) h'
  · exact absurd h' (by decide)
  · exact fmtFixed2_no_dash (hnn KB) h'
  · exact absurd h' (by decide)
  · rw [fmtPlain_nonneg_eq (not_lt.mpr hq)] at h'
    exact fmtPlainPos_no_dash h'
  · exact absurd h' (by decide)

theorem displayChars_head_dash {q : ℚ} (hq : q < 0) :
    (displayChars q).head? = some '-' := by
  rw [displayChars_eq]
  have habs : |q| = -q := abs_of_neg hq
  rw [habs]
  have key : ∀ e : Nat, (2 : ℚ) ^ e ≤ -q →
      ∃ t, fmtFixed2 (up_to q e) = '-' :: t := by
    intro e he
    refine fmtFixed2_head_neg (roundHalfEven_neg ?_)
    have h1 : up_to q e ≤ -1 := up_to_le_neg_one (by linarith)
    linarith
  split_ifs with h1 h2 h3 h4
  · obtain ⟨t, ht⟩ := key 40 h1
    rw [show up_to q TB = up_to q 40 from rfl, ht]
    rfl
  · obtain ⟨t, ht⟩ := key 30 h2
    rw [show up_to q GB = up_to q 30 from rfl, ht]
    rfl
  · obtain ⟨t, ht⟩ := key 20 h3
    rw [show up_to q MB = up_to q 20 from rfl, ht]
    rfl
  · obtain ⟨t, ht⟩ := key 10 h4
    rw [show up_to q KB = up_to q 10 from rfl, ht]
    rfl
  · obtain ⟨t, ht⟩ := fmtPlain_head_neg hq
    rw [ht]
    rfl

/-! ### Claim theorems -/

/-- C4: the conversion constructors scale by powers of two:
`from_kilo_bytes(v).as_bytes() = v * 2^10`, and likewise `2^20`, `2^30`,
`2^40` for the MB/GB/TB constructors (and `from_bytes` stores the value
unchanged); in particular `from_kilo_bytes(1)` through `from_tera_bytes(1)`
store `1024`, `1048576`, `1073741824`, `1099511627776` bytes. -/
theorem C4_conversion_scaling :
    (∀ v : ℚ, (Unit.from_bytes v).as_bytes = v) ∧
    (∀ v : ℚ, (Unit.from_kilo_bytes v).as_bytes = v * 2 ^ 10) ∧
    (∀ v : ℚ, (Unit.from_mega_bytes v).as_bytes = v * 2 ^ 20) ∧
    (∀ v : ℚ, (Unit.from_giga_bytes v).as_bytes = v * 2 ^ 30) ∧
    (∀ v : ℚ, (Unit.from_tera_bytes v).as_bytes = v * 2 ^ 40) ∧
    (Unit.from_kilo_bytes 1).as_bytes = 1024 ∧
    (Unit.from_mega_bytes 1).as_bytes = 1048576 ∧
    (Unit.from_giga_bytes 1).as_bytes = 1073741824 ∧
    (Unit.from_tera_bytes 1).as_bytes = 1099511627776 := by
  refine ⟨fun v => rfl, fun v => rfl, fun v => rfl, fun v => rfl, fun v => rfl, ?_, ?_, ?_, ?_⟩
  · with_unfolding_all rfl
  · with_unfolding_all rfl
  · with_unfolding_all rfl
  · with_unfolding_all rfl

/-- C7: each in-place assigning operator leaves the left operand equal to the
result of the value-returning operator, both operate directly on the raw byte
representation, and `from_bytes 5 + from_bytes 3 = from_bytes 8`. -/
theorem C7_arithmetic_inplace_raw :
    (∀ a b : SimpleSize.Unit, a.add_assign b = a.add b) ∧
    (∀ a b : SimpleSize.Unit, a.sub_assign b = a.sub b) ∧
    (∀ a b : SimpleSize.Unit, a.mul_assign b = a.mul b) ∧
    (∀ a b : SimpleSize.Unit, a.div_assign b = a.div b) ∧
    (∀ a b : SimpleSize.Unit, (a.add b).as_bytes = a.as_bytes + b.as_bytes) ∧
    (∀ a b : SimpleSize.Unit, (a.sub b).as_bytes = a.as_bytes - b.as_bytes) ∧
    (∀ a b : SimpleSize.Unit, (a.mul b).as_bytes = a.as_bytes * b.as_bytes) ∧
    (∀ a b : SimpleSize.Unit, (a.div b).as_bytes = a.as_bytes / b.as_bytes) ∧
    (Unit.from_bytes 5).add (Unit.from_bytes 3) = Unit.from_bytes 8 := by
  refine ⟨fun a b => rfl, fun a b => rfl, fun a b => rfl, fun a b => rfl, fun a b => rfl,
    fun a b => rfl, fun a b => rfl, fun a b => rfl, ?_⟩
  with_unfolding_all rfl

/-- C9: the serde adapter serializes a `Unit` to exactly the display string,
deserializes through the parsing contract surfacing each parse failure as a
deserialization error, and its expectation message reads
`string with the format: 99TB|GB|MB|B`. -/
theorem C9_serde_adapter :
    (∀ u : SimpleSize.Unit, u.serialize = u.to_display_string) ∧
    (∀ s e : String, Unit.from_str s = .error e → Unit.deserialize s = .error e) ∧
    (∀ (s : String) (u : SimpleSize.Unit),
        Unit.from_str s = .ok u → Unit.deserialize s = .ok u) ∧
    serde_expecting = "string with the format: 99TB|GB|MB|B" := by
  refine ⟨fun u => rfl, ?_, ?_, rfl⟩
  · intro s e h
    unfold Unit.deserialize
    rw [h]
  · intro s u h
    unfold Unit.deserialize
    rw [h]

/-- Witness for C9 at the concrete failing input `""`. -/
theorem C9_serde_adapter_witness :
    Unit.deserialize "" = .error (err_message "") :=
  C9_serde_adapter.2.1 "" (err_message "") rfl

/-- C10: parsing is total, and when the last numeric character is a multi-byte
character (so the byte split one past its start falls inside its encoding) the
checked split yields no result and parsing returns the `InvalidFormat` error
rather than panicking. -/
theorem C10_parse_total_multibyte :
    (∀ s : String, (∃ e, Unit.from_str s = .error e) ∨ ∃ u, Unit.from_str s = .ok u) ∧
    (∀ (s : String) (i : Nat) (c : Char),
        rfindNumeric s.data = some i → s.data[i]? = some c → utf8Len c ≠ 1 →
        Unit.from_str s = .error (err_message s)) := by
  constructor
  · intro s
    cases h : Unit.from_str s with
    | ok u => exact Or.inr ⟨u, rfl⟩
    | error e => exact Or.inl ⟨e, rfl⟩
  · intro s i c h1 hg hne
    simp only [Unit.from_str, h1, splitAtChecked_eq_none_of hg hne]

/-- Witness for C10 at the concrete input `"٣B"`, whose last numeric character
is the two-byte Arabic-Indic digit three. -/
theorem C10_parse_total_multibyte_witness :
    Unit.from_str "٣B" = .error (err_message "٣B") :=
  C10_parse_total_multibyte.2 "٣B" 0 '٣' rfl rfl (by decide)

/-- C6: the numeric prefix is whitespace-trimmed and decimal commas are
normalized to periods before the float parse, so decimal-comma inputs parse
exactly like decimal-point inputs; in particular `parse("1,5KB") = 1536`
bytes. -/
theorem C6_comma_normalization :
    (∀ l : List Char,
        replaceComma (l.map fun c => if c = '.' then ',' else c) = replaceComma l) ∧
    (∃ u, Unit.from_str "1,5KB" = .ok u ∧ u.as_bytes = 1536) ∧
    Unit.from_str "1,5KB" = Unit.from_str "1.5KB" ∧
    Unit.from_str " 1.5 KB" = Unit.from_str "1.5KB" := by
  refine ⟨?_, ⟨Unit.from_kilo_bytes (3 / 2), by with_unfolding_all rfl,
    by with_unfolding_all rfl⟩, by with_unfolding_all rfl, by with_unfolding_all rfl⟩
  intro l
  unfold replaceComma
  rw [List.map_map]
  have hfg : ((fun c => if c = ',' then '.' else c) ∘ fun c => if c = '.' then ',' else c) =
      fun c => if c = ',' then '.' else c := by
    funext c
    by_cases h1 : c = '.'
    · subst h1
      simp
    · by_cases h2 : c = ','
      · subst h2
        simp
      · simp [Function.comp, h1, h2]
  rw [hfg]

/-- C1: `to_display_string` selects the largest tier, checked in descending
order TB, GB, MB, KB, B, whose threshold the absolute value of the stored byte
count meets: the rendered string is a non-alphabetic numeric part followed by
exactly the tier `selectedTier` picks; in particular a `Unit` holding
`-1.5 * 2^30` bytes formats in the GB tier. -/
theorem C1_tier_selection_absolute :
    (∀ u : SimpleSize.Unit, ∃ pre,
        (u.to_display_string).data = pre ++ (selectedTier u.as_bytes).data ∧
        ∀ c ∈ pre, c.isAlpha = false) ∧
    (Unit.from_bytes (-(3 / 2) * 2 ^ 30)).to_display_string = "-1.50GB" ∧
    selectedTier (Unit.from_bytes (-(3 / 2) * 2 ^ 30)).as_bytes = "GB" := by
  refine ⟨?_, by with_unfolding_all rfl, by with_unfolding_all rfl⟩
  intro u
  show ∃ pre, displayChars u.val = pre ++ (selectedTier u.val).data ∧
      ∀ c ∈ pre, c.isAlpha = false
  rw [displayChars_eq]
  unfold selectedTier
  split_ifs with h1 h2 h3 h4
  · exact ⟨fmtFixed2 (up_to u.val TB), rfl, fun c hc => fmtFixed2_not_alpha hc⟩
  · exact ⟨fmtFixed2 (up_to u.val GB), rfl, fun c hc => fmtFixed2_not_alpha hc⟩
  · exact ⟨fmtFixed2 (up_to u.val MB), rfl, fun c hc => fmtFixed2_not_alpha hc⟩
  · exact ⟨fmtFixed2 (up_to u.val KB), rfl, fun c hc => fmtFixed2_not_alpha hc⟩
  · exact ⟨fmtPlain u.val, rfl, fun c hc => fmtPlain_not_alpha hc⟩

/-- Witness for C1 at the concrete byte count `-1.5 * 2^30`. -/
theorem C1_tier_selection_absolute_witness :
    ∃ pre,
      ((Unit.from_bytes (-(3 / 2) * 2 ^ 30)).to_display_string).data =
        pre ++ (selectedTier (Unit.from_bytes (-(3 / 2) * 2 ^ 30)).as_bytes).data ∧
      ∀ c ∈ pre, c.isAlpha = false :=
  C1_tier_selection_absolute.1 (Unit.from_bytes (-(3 / 2) * 2 ^ 30))

/-- C5 counterexample: a half-byte `Unit` formats in the B tier, yet its
rendering `"0.5B"` carries a decimal point and a fractional digit, refuting
the claim's clause that the B tier always renders with no fractional
digits. -/
theorem C5_b_tier_counterexample :
    selectedTier (Unit.from_bytes (1 / 2)).as_bytes = "B" ∧
    (Unit.from_bytes (1 / 2)).to_display_string = "0.5B" ∧
    '.' ∈ ((Unit.from_bytes (1 / 2)).to_display_string).data := by
  refine ⟨by with_unfolding_all rfl, by with_unfolding_all rfl, ?_⟩
  rw [show ((Unit.from_bytes (1 / 2)).to_display_string).data = "0.5B".data from by
    with_unfolding_all rfl]
  decide

/-- C5 (amended): for every `Unit` formatted in the TB, GB, MB or KB tier the
numeric part has exactly two digits after the decimal point; a `Unit`
formatted in the B tier with an *integral* byte count is rendered as a plain
number with no decimal point (a fractional B-tier count keeps its fractional
digits); the sign of the stored value is preserved in the output; and
`from_tera_bytes 10`, `from_bytes 10`, `from_giga_bytes (-10)` render as
`"10.00TB"`, `"10B"`, `"-10.00GB"`. -/
theorem C5_display_format_amended :
    (∀ u : SimpleSize.Unit, selectedTier u.as_bytes ≠ "B" →
        ∃ pre d1 d2,
          (u.to_display_string).data =
            pre ++ '.' :: d1 :: d2 :: (selectedTier u.as_bytes).data ∧
          isAsciiDigit d1 = true ∧ isAsciiDigit d2 = true ∧ '.' ∉ pre) ∧
    (∀ u : SimpleSize.Unit, selectedTier u.as_bytes = "B" → (u.as_bytes).den = 1 →
        '.' ∉ (u.to_display_string).data) ∧
    (∀ u : SimpleSize.Unit, 0 ≤ u.as_bytes → '-' ∉ (u.to_display_string).data) ∧
    (∀ u : SimpleSize.Unit, u.as_bytes < 0 →
        ((u.to_display_string).data).head? = some '-') ∧
    (Unit.from_tera_bytes 10).to_display_string = "10.00TB" ∧
    (Unit.from_bytes 10).to_display_string = "10B" ∧
    (Unit.from_giga_bytes (-10)).to_display_string = "-10.00GB" := by
  have hfmt : ∀ (x : ℚ) (T : String),
      fmtFixed2 x ++ T.data =
        ((if roundHalfEven (x * 100) < 0 then ['-'] else []) ++
            natChars ((roundHalfEven (x * 100)).natAbs / 100)) ++
          '.' :: digitChar ((roundHalfEven (x * 100)).natAbs / 10 % 10) ::
            digitChar ((roundHalfEven (x * 100)).natAbs % 10) :: T.data := by
    intro x T
    rw [fmtFixed2_eq]
    simp [List.append_assoc]
  refine ⟨?_, ?_, ?_, ?_, by with_unfolding_all rfl, by with_unfolding_all rfl,
    by with_unfolding_all rfl⟩
  · intro u h
    simp only [Unit.as_bytes] at h ⊢
    rw [show (u.to_display_string).data = displayChars u.val from rfl, displayChars_eq]
    unfold selectedTier at h ⊢
    split_ifs at h ⊢ with h1 h2 h3 h4
    · exact ⟨_, _, _, hfmt (up_to u.val TB) "TB", digitChar_isDigit _, digitChar_isDigit _,
        dot_not_mem_sign_nat⟩
    · exact ⟨_, _, _, hfmt (up_to u.val GB) "GB", digitChar_isDigit _, digitChar_isDigit _,
        dot_not_mem_sign_nat⟩
    · exact ⟨_, _, _, hfmt (up_to u.val MB) "MB", digitChar_isDigit _, digitChar_isDigit _,
        dot_not_mem_sign_nat⟩
    · exact ⟨_, _, _, hfmt (up_to u.val KB) "KB", digitChar_isDigit _, digitChar_isDigit _,
        dot_not_mem_sign_nat⟩
    · exact absurd rfl h
  · intro u h hden
    simp only [Unit.as_bytes] at h hden
    rw [show (u.to_display_string).data = displayChars u.val from rfl, displayChars_eq]
    unfold selectedTier at h
    split_ifs at h ⊢ with h1 h2 h3 h4
    · exact absurd h (by decide)
    · exact absurd h (by decide)
    · exact absurd h (by decide)
    · exact absurd h (by decide)
    · intro hm
      rcases List.mem_append.mp hm with h' | h'
      · exact fmtPlain_no_dot_of_den_one hden h'
      · exact absurd h' (by decide)
  · intro u hq
    simp only [Unit.as_bytes] at hq
    rw [show (u.to_display_string).data = displayChars u.val from rfl]
    exact displayChars_no_dash hq
  · intro u hq
    simp only [Unit.as_bytes] at hq
    rw [show (u.to_display_string).data = displayChars u.val from rfl]
    exact displayChars_head_dash hq

/-- Witness for C5 at the concrete byte count `-2000` (KB tier). -/
theorem C5_display_format_amended_witness :
    ∃ pre d1 d2,
      ((Unit.from_bytes (-2000)).to_display_string).data =
        pre ++ '.' :: d1 :: d2 :: (selectedTier (Unit.from_bytes (-2000)).as_bytes).data ∧
      isAsciiDigit d1 = true ∧ isAsciiDigit d2 = true ∧ '.' ∉ pre :=
  C5_display_format_amended.1 (Unit.from_bytes (-2000))
    (by rw [show selectedTier (Unit.from_bytes (-2000)).as_bytes = "KB" from by
        with_unfolding_all rfl]
        decide)

/-- C2: parsing a well-formed string splits after the last numeric character,
parses the normalized prefix as a number and scales it by the suffix's
power-of-two multiplier, preserving sign; concretely
`parse("1KB") = 1024` bytes and `parse("-1TB") = -1099511627776` bytes. -/
theorem C2_parse_wellformed :
    (∀ (s : String) (i : Nat) (pre suf : List Char) (v : ℚ),
        rfindNumeric s.data = some i →
        splitAtChecked s.data i = some (pre, suf) →
        parseF32 (replaceComma (trim pre)) = some v →
        (trim suf = "B".data → Unit.from_str s = .ok (Unit.from_bytes v)) ∧
        (trim suf = "KB".data → Unit.from_str s = .ok (Unit.from_kilo_bytes v)) ∧
        (trim suf = "MB".data → Unit.from_str s = .ok (Unit.from_mega_bytes v)) ∧
        (trim suf = "GB".data → Unit.from_str s = .ok (Unit.from_giga_bytes v)) ∧
        (trim suf = "TB".data → Unit.from_str s = .ok (Unit.from_tera_bytes v))) ∧
    (∃ u, Unit.from_str "1KB" = .ok u ∧ u.as_bytes = 1024) ∧
    (∃ u, Unit.from_str "-1TB" = .ok u ∧ u.as_bytes = -1099511627776) := by
  refine ⟨?_, ⟨Unit.from_kilo_bytes 1, by with_unfolding_all rfl, by with_unfolding_all rfl⟩,
    ⟨Unit.from_tera_bytes (-1), by with_unfolding_all rfl, by with_unfolding_all rfl⟩⟩
  intro s i pre suf v h1 h2 h3
  simp only [Unit.from_str, h1, h2, h3]
  refine ⟨?_, ?_, ?_, ?_, ?_⟩ <;> intro hsuf <;> rw [hsuf]
  · rw [if_pos rfl]
  · rw [if_neg (by decide), if_pos rfl]
  · rw [if_neg (by decide), if_neg (by decide), if_pos rfl]
  · rw [if_neg (by decide), if_neg (by decide), if_neg (by decide), if_pos rfl]
  · rw [if_neg (by decide), if_neg (by decide), if_neg (by decide), if_neg (by decide),
      if_pos rfl]

/-- Witness for C2 at the concrete input `"1KB"`. -/
theorem C2_parse_wellformed_witness :
    Unit.from_str "1KB" = .ok (Unit.from_kilo_bytes 1) :=
  (C2_parse_wellformed.1 "1KB" 0 ['1'] ['K', 'B'] 1 rfl rfl
    (by with_unfolding_all rfl)).2.1 rfl

/-- Every parse error is the `err_message` of the input, optionally extended
with the numeric-parse failure message. -/
theorem from_str_error_shape {s e : String} (h : Unit.from_str s = .error e) :
    e = err_message s ∨ e = err_message s ++ ": invalid float literal" := by
  cases h1 : rfindNumeric s.data with
  | none =>
    simp only [Unit.from_str, h1] at h
    injection h with h'
    exact Or.inl h'.symm
  | some i =>
    cases h2 : splitAtChecked s.data i with
    | none =>
      simp only [Unit.from_str, h1, h2] at h
      injection h with h'
      exact Or.inl h'.symm
    | some pr =>
      obtain ⟨pre, suf⟩ := pr
      cases h3 : parseF32 (replaceComma (trim pre)) with
      | none =>
        simp only [Unit.from_str, h1, h2, h3] at h
        injection h with h'
        exact Or.inr h'.symm
      | some v =>
        simp only [Unit.from_str, h1, h2, h3] at h
        split_ifs at h
        all_goals
          first
          | exact Except.noConfusion h
          | (injection h with h'
             exact Or.inl h'.symm)

/-- C3: parsing fails with an `InvalidFormat` error carrying the offending
input exactly when the input has no numeric character, the (comma-normalized,
trimmed) numeric prefix does not parse as a float, or the trimmed suffix is
not one of `"B"`, `"KB"`, `"MB"`, `"GB"`, `"TB"`; in particular `"10XB"`,
`"abc"` and `""` all fail. -/
theorem C3_parse_error_characterization :
    (∀ s : String,
        (∃ e, Unit.from_str s = .error e) ↔
          ((∀ c ∈ s.data, rustIsNumeric c = false) ∨
            (∃ i, rfindNumeric s.data = some i ∧
              parseF32 (replaceComma (trim (s.data.take (i + 1)))) = none) ∨
            (∃ i, rfindNumeric s.data = some i ∧
              trim (s.data.drop (i + 1)) ∉
                ["B".data, "KB".data, "MB".data, "GB".data, "TB".data]))) ∧
    (∀ s e, Unit.from_str s = .error e →
        ∃ t, e.data = "invalid format for unit size: ".data ++ s.data ++ t) ∧
    (∃ e, Unit.from_str "10XB" = .error e) ∧
    (∃ e, Unit.from_str "abc" = .error e) ∧
    (∃ e, Unit.from_str "" = .error e) := by
  refine ⟨?_, ?_, ⟨_, by with_unfolding_all rfl⟩, ⟨_, by with_unfolding_all rfl⟩,
    ⟨_, by with_unfolding_all rfl⟩⟩
  · intro s
    cases h1 : rfindNumeric s.data with
    | none =>
      apply iff_of_true
      · exact ⟨err_message s, by simp only [Unit.from_str, h1]⟩
      · exact Or.inl (rfindNumeric_eq_none.mp h1)
    | some i =>
      cases h2 : splitAtChecked s.data i with
      | none =>
        obtain ⟨c, hg, hr⟩ := rfindNumeric_some_getElem h1
        have hne : utf8Len c ≠ 1 := by
          intro h1'
          rw [splitAtChecked_spec hg, if_pos h1'] at h2
          cases h2
        have hpn := parse_prefix_none_of_big hg (toNat_big_of_utf8Len_ne_one hne)
        apply iff_of_true
        · exact ⟨err_message s, by simp only [Unit.from_str, h1, h2]⟩
        · exact Or.inr (Or.inl ⟨i, rfl, hpn⟩)
      | some pr =>
        obtain ⟨pre, suf⟩ := pr
        obtain ⟨hpre, hsuf⟩ := splitAtChecked_eq_some h2
        simp only at hpre hsuf
        cases h3 : parseF32 (replaceComma (trim pre)) with
        | none =>
          apply iff_of_true
          · exact ⟨err_message s ++ ": invalid float literal",
              by simp only [Unit.from_str, h1, h2, h3]⟩
          · exact Or.inr (Or.inl ⟨i, rfl, by rw [← hpre]; exact h3⟩)
        | some v =>
          by_cases hmem :
              trim suf ∈ ["B".data, "KB".data, "MB".data, "GB".data, "TB".data]
          · apply iff_of_false
            · rintro ⟨e, he⟩
              simp only [Unit.from_str, h1, h2, h3] at he
              simp only [List.mem_cons, List.not_mem_nil, or_false] at hmem
              rcases hmem with ht | ht | ht | ht | ht
              · rw [ht, if_pos rfl] at he
                exact Except.noConfusion he
              · rw [ht, if_neg (by decide), if_pos rfl] at he
                exact Except.noConfusion he
              · rw [ht, if_neg (by decide), if_neg (by decide), if_pos rfl] at he
                exact Except.noConfusion he
              · rw [ht, if_neg (by decide), if_neg (by decide), if_neg (by decide),
                  if_pos rfl] at he
                exact Except.noConfusion he
              · rw [ht, if_neg (by decide), if_neg (by decide), if_neg (by decide),
                  if_neg (by decide), if_pos rfl] at he
                exact Except.noConfusion he
            · rintro (hall | ⟨i', hi', hp'⟩ | ⟨i', hi', hm'⟩)
              · have hnone := rfindNumeric_eq_none.mpr hall
                rw [h1] at hnone
                cases hnone
              · injection hi' with hii
                subst hii
                rw [← hpre] at hp'
                rw [hp'] at h3
                cases h3
              · injection hi' with hii
                subst hii
                rw [← hsuf] at hm'
                exact hm' hmem
          · have h5 : ¬(trim suf = "B".data) := fun hh => hmem (by rw [hh]; simp)
            have h6 : ¬(trim suf = "KB".data) := fun hh => hmem (by rw [hh]; simp)
            have h7 : ¬(trim suf = "MB".data) := fun hh => hmem (by rw [hh]; simp)
            have h8 : ¬(trim suf = "GB".data) := fun hh => hmem (by rw [hh]; simp)
            have h9 : ¬(trim suf = "TB".data) := fun hh => hmem (by rw [hh]; simp)
            apply iff_of_true
            · exact ⟨err_message s, by
                simp only [Unit.from_str, h1, h2, h3]
                rw [if_neg h5, if_neg h6, if_neg h7, if_neg h8, if_neg h9]⟩
            · exact Or.inr (Or.inr ⟨i, rfl, by rw [← hsuf]; exact hmem⟩)
  · intro s e h
    rcases from_str_error_shape h with rfl | rfl
    · refine ⟨". Acceptable formats are nB, nKB, nMB,nGB, nTB".data, ?_⟩
      unfold err_message
      rw [String.data_append, String.data_append]
    · refine ⟨". Acceptable formats are nB, nKB, nMB,nGB, nTB".data ++
        ": invalid float literal".data, ?_⟩
      unfold err_message
      rw [String.data_append, String.data_append, String.data_append]
      simp [List.append_assoc]

/-- Witness for C3 at the concrete failing input `""`. -/
theorem C3_parse_error_characterization_witness :
    ∃ t, (err_message "").data = "invalid format for unit size: ".data ++ "".data ++ t :=
  C3_parse_error_characterization.2.1 "" (err_message "") rfl

end SimpleSize
